import Mathlib

/-!
Shallow embedding of `core/codegen/src/syn_ext.rs` (extensions to `syn` types
used by Rocket's code generation).

The embedding models:
* `proc_macro2::TokenTree`/`TokenStream` (`Tok`, `List Tok`) with spans as `Nat`,
  and `TokenStreamExt::respanned`;
* `proc_macro2::Ident` (`Ident`) with its raw flag and span, `Ident::new`'s
  validation (returning `Option` where the Rust constructor panics), and
  `IdentExt::prepend`/`append`;
* `syn::Type` (`Ty`), covering the variants the source distinguishes
  (`Path`, `Macro`, `ImplTrait`, `Infer`, `BareFn`, `Never`) plus the
  composite variants the generic `syn::visit` traversal descends through
  (`TraitObject`, `Tuple`, `Reference`, `Slice`, `Array`, `Paren`, `Ptr`,
  `Group`).  A `Macro`'s token content is modelled by the result of the one
  fallible external step, `syn::parse2::<syn::Type>` : `tokens : Option Ty`
  is `some m` when the tokens parse as the type `m` and `none` when parsing
  fails.  `TypePath.qself` and `Verbatim` are not modelled;
* `known_macro_inner_ty`, `TypeExt::unfold_with_known_macros` /
  `TypeExt::unfold` (the visitor's parent stack is represented by the one
  value the Rust visitor reads from it, `parents.last()`, threaded down the
  recursion), and `TypeExt::is_concrete` (the visitor's mutable `bool` field
  threaded through the traversal in visitation order).
-/

namespace SynExt

/-- `proc_macro2::TokenTree`: spans are source-location ids (`Nat`).
A `group`'s `inner` is the delimited sub-stream. -/
inductive Tok where
  | ident (text : String) (span : Nat)
  | punct (ch : Char) (span : Nat)
  | lit (text : String) (span : Nat)
  | group (delim : Nat) (inner : List Tok) (span : Nat)
  deriving Repr

/-- `proc_macro2::TokenTree::set_span`: on a `Group` this sets the span of the
delimiters only — the tokens inside the group keep their own spans (this is
the documented behaviour of `proc_macro2::Group::set_span`). -/
def Tok.set_span (s : Nat) : Tok → Tok
  | .ident t _ => .ident t s
  | .punct c _ => .punct c s
  | .lit t _ => .lit t s
  | .group d inner _ => .group d inner s

/-- `TokenStreamExt::respanned`: clone the stream and `set_span` every
(top-level) token. -/
def respanned (ts : List Tok) (s : Nat) : List Tok :=
  ts.map (Tok.set_span s)

/-- The span a token carries at its own top level. -/
def Tok.topSpan : Tok → Nat
  | .ident _ sp => sp
  | .punct _ sp => sp
  | .lit _ sp => sp
  | .group _ _ sp => sp

/-- A token with its top-level span zeroed (its content, including every
nested token and nested span, untouched). -/
def Tok.eraseTopSpan : Tok → Tok
  | .ident t _ => .ident t 0
  | .punct c _ => .punct c 0
  | .lit t _ => .lit t 0
  | .group d inner _ => .group d inner 0

mutual

/-- Whether every span in the token tree, at every nesting depth, is `s`. -/
def Tok.allSpansAre (s : Nat) : Tok → Bool
  | .ident _ sp => sp == s
  | .punct _ sp => sp == s
  | .lit _ sp => sp == s
  | .group _ inner sp => sp == s && Tok.listSpansAre s inner

/-- `Tok.allSpansAre` over a stream. -/
def Tok.listSpansAre (s : Nat) : List Tok → Bool
  | [] => true
  | t :: ts => Tok.allSpansAre s t && Tok.listSpansAre s ts

end

/-- `proc_macro2::Ident`: the symbol text (without the `r#` prefix), the raw
flag, and the span. -/
structure Ident where
  text : String
  isRaw : Bool
  span : Nat
  deriving Repr, DecidableEq

/-- `Display for Ident`: a raw identifier prints with its `r#` prefix. -/
def Ident.display (i : Ident) : String :=
  (if i.isRaw then "r#" else "") ++ i.text

/-- `syn::ext::IdentExt::unraw`. -/
def Ident.unraw (i : Ident) : Ident :=
  { i with isRaw := false }

/-- `proc_macro2`'s identifier validation (ASCII fragment): nonempty, not
`"_"`, first char alphabetic or `_`, rest alphanumeric or `_`.  In
particular `#` is never a valid identifier character, so a string carrying a
`r#` prefix is rejected. -/
def identOk (s : String) : Bool :=
  match s.data with
  | [] => false
  | c :: cs =>
    (s != "_") && (c.isAlpha || c == '_') && cs.all (fun d => d.isAlphanum || d == '_')

/-- `proc_macro2::Ident::new`: panics (here: `none`) unless the string is a
valid (non-raw) identifier. -/
def Ident.new (s : String) (sp : Nat) : Option Ident :=
  if identOk s then some ⟨s, false, sp⟩ else none

/-- `IdentExt::prepend`: `Ident::new(&format!("{}{}", string, self.unraw()), self.span())`. -/
def Ident.prepend (i : Ident) (s : String) : Option Ident :=
  Ident.new (s ++ i.unraw.display) i.span

/-- `IdentExt::append`: `Ident::new(&format!("{}{}", self, string), self.span())`.
Note: unlike `prepend`, the ORIGINAL display form is used, so a raw
identifier contributes its `r#` prefix. -/
def Ident.append (i : Ident) (s : String) : Option Ident :=
  Ident.new (i.display ++ s) i.span

/-- `syn::Type` (the fragment relevant to `syn_ext.rs`).  A `path` is a list
of segments, each an identifier with its angle-bracketed type arguments,
plus a leading-colon flag.  A `macroInv` is a macro-invocation type: the
macro's path segments and the result of parsing its token content as a type
(`none` = `syn::parse2` fails). -/
inductive Ty where
  | path (leadingColon : Bool) (segs : List (String × List Ty))
  | macroInv (segs : List String) (tokens : Option Ty)
  | implTrait (bounds : List Ty)
  | traitObject (bounds : List Ty)
  | infer
  | never
  | bareFn (inputs : List Ty) (output : Option Ty)
  | tuple (elems : List Ty)
  | reference (elem : Ty)
  | slice (elem : Ty)
  | array (elem : Ty)
  | paren (elem : Ty)
  | ptr (elem : Ty)
  | group (elem : Ty)
  deriving Repr

/-- A `Child` record: a type node paired with its nearest enclosing type
node, if any (`Cow` ownership is irrelevant to the values and not
modelled). -/
structure Child where
  parent : Option Ty
  ty : Ty
  deriving Repr

/-- `syn::Path::is_ident`: no leading colon, exactly one segment, that
segment has no arguments and its ident equals the given one. -/
def path_is_ident (leadingColon : Bool) (segs : List (String × List Ty)) (i : String) : Bool :=
  !leadingColon &&
    match segs with
    | [(s, args)] => s == i && args.isEmpty
    | _ => false

/-- `known.iter().any(|k| t.mac.path.last_ident().map_or(false, |i| i == k))`:
the macro path's last segment ident is one of the known names. -/
def isKnownName (known : List String) (segs : List String) : Bool :=
  known.any (fun k => segs.getLast? == some k)

/-- `known_macro_inner_ty`: for a macro-invocation type whose macro name is
in the allow-list, the result of parsing its tokens as a type; `none`
otherwise (name unknown, parse failure — or not a macro type at all, in
which case the source never calls this). -/
def known_macro_inner_ty (t : Ty) (known : List String) : Option Ty :=
  match t with
  | .macroInv segs tokens => if isKnownName known segs then tokens else none
  | _ => none

mutual

/-- The body of `Visitor::visit_type` in `unfold_with_known_macros`.
`parent` is `self.parents.last()` (the only part of the parent stack the
Rust visitor reads); the returned list is the sequence of `Child` records
this visit appends to `self.children`, in order.  A macro-invocation node
whose name is known and whose tokens parse as `inner` is replaced by the
unfolding of `inner` under the same `parent` (the fresh visitor seeded with
`parent`); every other node is recorded and its syntactic type children are
visited with the node itself as parent, in `syn::visit` order. -/
def unfoldVisit (known : List String) (parent : Option Ty) : Ty → List Child
  | .path lc segs =>
    ⟨parent, .path lc segs⟩ :: unfoldSegs known (.path lc segs) segs
  | .macroInv segs tokens =>
    if isKnownName known segs then
      match tokens with
      | some inner => unfoldVisit known parent inner
      | none => [⟨parent, .macroInv segs tokens⟩]
    else [⟨parent, .macroInv segs tokens⟩]
  | .implTrait bounds =>
    ⟨parent, .implTrait bounds⟩ :: unfoldList known (.implTrait bounds) bounds
  | .traitObject bounds =>
    ⟨parent, .traitObject bounds⟩ :: unfoldList known (.traitObject bounds) bounds
  | .infer => [⟨parent, .infer⟩]
  | .never => [⟨parent, .never⟩]
  | .bareFn inputs output =>
    ⟨parent, .bareFn inputs output⟩ ::
      (unfoldList known (.bareFn inputs output) inputs ++
        unfoldOpt known (.bareFn inputs output) output)
  | .tuple elems => ⟨parent, .tuple elems⟩ :: unfoldList known (.tuple elems) elems
  | .reference e => ⟨parent, .reference e⟩ :: unfoldVisit known (some (.reference e)) e
  | .slice e => ⟨parent, .slice e⟩ :: unfoldVisit known (some (.slice e)) e
  | .array e => ⟨parent, .array e⟩ :: unfoldVisit known (some (.array e)) e
  | .paren e => ⟨parent, .paren e⟩ :: unfoldVisit known (some (.paren e)) e
  | .ptr e => ⟨parent, .ptr e⟩ :: unfoldVisit known (some (.ptr e)) e
  | .group e => ⟨parent, .group e⟩ :: unfoldVisit known (some (.group e)) e

/-- Visiting a list of type children in order, each with parent `pt`. -/
def unfoldList (known : List String) (pt : Ty) : List Ty → List Child
  | [] => []
  | t :: ts => unfoldVisit known (some pt) t ++ unfoldList known pt ts

/-- Visiting path segments in order: each segment's type arguments in
order (what `syn::visit` reaches through `visit_path_segment` /
`visit_path_arguments`). -/
def unfoldSegs (known : List String) (pt : Ty) : List (String × List Ty) → List Child
  | [] => []
  | (_, args) :: rest => unfoldList known pt args ++ unfoldSegs known pt rest

/-- Visiting an optional type child (e.g. a `ReturnType`). -/
def unfoldOpt (known : List String) (pt : Ty) : Option Ty → List Child
  | none => []
  | some t => unfoldVisit known (some pt) t

end

/-- `TypeExt::unfold_with_known_macros`: run the visitor from the root with
an empty parent stack and collect its `children`. -/
def unfold_with_known_macros (t : Ty) (known : List String) : List Child :=
  unfoldVisit known none t

/-- `TypeExt::unfold`: `unfold_with_known_macros` with no known macros. -/
def Ty.unfold (t : Ty) : List Child :=
  unfold_with_known_macros t []

mutual

/-- The body of `ConcreteVisitor::visit_type`: `b` is the visitor's mutable
`bool` field (`self.0`) on entry, the result its value after the visit.  A
path equal to one of the generic idents, an `impl Trait`, an inferred type
or a macro type assigns `false`; a bare-fn or never type assigns `true`
(overwriting whatever the field held); everything else descends through its
syntactic type children in `syn::visit` order, threading the field. -/
def concreteVisit (generics : List String) (b : Bool) : Ty → Bool
  | .path lc segs =>
    if generics.any (fun i => path_is_ident lc segs i) then false
    else concreteSegs generics b segs
  | .implTrait _ => false
  | .infer => false
  | .macroInv _ _ => false
  | .bareFn _ _ => true
  | .never => true
  | .traitObject bounds => concreteList generics b bounds
  | .tuple elems => concreteList generics b elems
  | .reference e => concreteVisit generics b e
  | .slice e => concreteVisit generics b e
  | .array e => concreteVisit generics b e
  | .paren e => concreteVisit generics b e
  | .ptr e => concreteVisit generics b e
  | .group e => concreteVisit generics b e

/-- Threading the concreteness flag through a list of type children. -/
def concreteList (generics : List String) (b : Bool) : List Ty → Bool
  | [] => b
  | t :: ts => concreteList generics (concreteVisit generics b t) ts

/-- Threading the concreteness flag through path segments' type
arguments. -/
def concreteSegs (generics : List String) (b : Bool) : List (String × List Ty) → Bool
  | [] => b
  | (_, args) :: rest => concreteSegs generics (concreteList generics b args) rest

end

/-- `TypeExt::is_concrete`: run `ConcreteVisitor(true, generics)` on the
root and read its flag. -/
def is_concrete (t : Ty) (generics : List String) : Bool :=
  concreteVisit generics true t

/-- The syntactic type children of a node, in `syn::visit` traversal order:
the generic type arguments of each path segment in order, the bound types of
`impl Trait` / `dyn Trait`, a bare-fn's input types then its return type,
tuple elements, and the single pointee of the one-child composites.  A macro
invocation, `_` and `!` have no type children. -/
def typeChildren : Ty → List Ty
  | .path _ segs => (segs.map Prod.snd).flatten
  | .macroInv _ _ => []
  | .implTrait bounds => bounds
  | .traitObject bounds => bounds
  | .infer => []
  | .never => []
  | .bareFn inputs output => inputs ++ output.toList
  | .tuple elems => elems
  | .reference e => [e]
  | .slice e => [e]
  | .array e => [e]
  | .paren e => [e]
  | .ptr e => [e]
  | .group e => [e]

/-- The type expression of the repository's unit test
(`test_type_unfold_is_generic`): `A<B, C<impl Foo>, Box<dyn Foo>, Option<T>>`.
`impl Foo` and `dyn Foo` carry no type arguments in their bounds, so they
have no type children. -/
def exTy : Ty :=
  Ty.path false [("A",
    [Ty.path false [("B", [])],
     Ty.path false [("C", [Ty.implTrait []])],
     Ty.path false [("Box", [Ty.traitObject []])],
     Ty.path false [("Option", [Ty.path false [("T", [])]])]])]

/-! ### Infrastructure lemmas about the traversals -/

theorem known_macro_inner_ty_nil (t : Ty) : known_macro_inner_ty t [] = none := by
  cases t <;> simp [known_macro_inner_ty, isKnownName]

theorem sizeOf_lt_of_known_inner {t inner : Ty} {known : List String}
    (h : known_macro_inner_ty t known = some inner) : sizeOf inner < sizeOf t := by
  cases t <;> simp only [known_macro_inner_ty] at h
  case macroInv segs tokens =>
    by_cases hk : isKnownName known segs = true
    · rw [if_pos hk] at h
      subst h
      simp only [Ty.macroInv.sizeOf_spec, Option.some.sizeOf_spec]
      omega
    · rw [if_neg hk] at h
      exact absurd h (by simp)
  all_goals exact absurd h (by simp)

theorem typeChildren_sizeOf {t ch : Ty} (h : ch ∈ typeChildren t) :
    sizeOf ch < sizeOf t := by
  cases t <;> simp only [typeChildren] at h
  case path lc segs =>
    rcases List.mem_flatten.mp h with ⟨args, hargs, hch⟩
    rcases List.mem_map.mp hargs with ⟨⟨s, as⟩, hsg, rfl⟩
    have h1 : sizeOf ch < sizeOf as := by simpa using List.sizeOf_lt_of_mem hch
    have h2 := List.sizeOf_lt_of_mem hsg
    simp only [Prod.mk.sizeOf_spec] at h2
    simp only [Ty.path.sizeOf_spec]
    omega
  case macroInv segs tokens => cases h
  case implTrait bounds =>
    have := List.sizeOf_lt_of_mem h
    simp only [Ty.implTrait.sizeOf_spec]
    omega
  case traitObject bounds =>
    have := List.sizeOf_lt_of_mem h
    simp only [Ty.traitObject.sizeOf_spec]
    omega
  case infer => cases h
  case never => cases h
  case bareFn inputs output =>
    rcases List.mem_append.mp h with h | h
    · have := List.sizeOf_lt_of_mem h
      simp only [Ty.bareFn.sizeOf_spec]
      omega
    · rcases output with _ | o
      · cases h
      · rcases List.mem_singleton.mp h with rfl
        simp only [Ty.bareFn.sizeOf_spec, Option.some.sizeOf_spec]
        omega
  case tuple elems =>
    have := List.sizeOf_lt_of_mem h
    simp only [Ty.tuple.sizeOf_spec]
    omega
  case reference e =>
    rcases List.mem_singleton.mp h with rfl
    simp only [Ty.reference.sizeOf_spec]
    omega
  case slice e =>
    rcases List.mem_singleton.mp h with rfl
    simp only [Ty.slice.sizeOf_spec]
    omega
  case array e =>
    rcases List.mem_singleton.mp h with rfl
    simp only [Ty.array.sizeOf_spec]
    omega
  case paren e =>
    rcases List.mem_singleton.mp h with rfl
    simp only [Ty.paren.sizeOf_spec]
    omega
  case ptr e =>
    rcases List.mem_singleton.mp h with rfl
    simp only [Ty.ptr.sizeOf_spec]
    omega
  case group e =>
    rcases List.mem_singleton.mp h with rfl
    simp only [Ty.group.sizeOf_spec]
    omega

theorem unfoldList_eq (known : List String) (pt : Ty) (l : List Ty) :
    unfoldList known pt l = l.flatMap (unfoldVisit known (some pt)) := by
  induction l with
  | nil => simp [unfoldList]
  | cons t ts ih => simp [unfoldList, ih]

theorem unfoldOpt_eq (known : List String) (pt : Ty) (o : Option Ty) :
    unfoldOpt known pt o = o.toList.flatMap (unfoldVisit known (some pt)) := by
  cases o <;> simp [unfoldOpt]

theorem unfoldSegs_eq (known : List String) (pt : Ty) (segs : List (String × List Ty)) :
    unfoldSegs known pt segs
      = ((segs.map Prod.snd).flatten).flatMap (unfoldVisit known (some pt)) := by
  induction segs with
  | nil => simp [unfoldSegs]
  | cons sg rest ih =>
    obtain ⟨s, args⟩ := sg
    simp [unfoldSegs, ih, unfoldList_eq]

/-- The expansion step of `Visitor::visit_type`: a macro node the allow-list
expands is replaced by the visit of its parse result under the same
parent. -/
theorem unfoldVisit_expand {t inner : Ty} {known : List String} (p : Option Ty)
    (h : known_macro_inner_ty t known = some inner) :
    unfoldVisit known p t = unfoldVisit known p inner := by
  cases t <;> simp only [known_macro_inner_ty] at h
  case macroInv segs tokens =>
    by_cases hk : isKnownName known segs = true
    · rw [if_pos hk] at h
      subst h
      simp [unfoldVisit, hk]
    · rw [if_neg hk] at h
      exact absurd h (by simp)
  all_goals exact absurd h (by simp)

/-- The recording step of `Visitor::visit_type`: any node the allow-list does
not expand is recorded under its parent and its syntactic type children are
visited, in order, with the node itself as parent. -/
theorem unfoldVisit_rec {t : Ty} {known : List String} (p : Option Ty)
    (h : known_macro_inner_ty t known = none) :
    unfoldVisit known p t
      = ⟨p, t⟩ :: (typeChildren t).flatMap (unfoldVisit known (some t)) := by
  cases t
  case path lc segs => simp [unfoldVisit, typeChildren, unfoldSegs_eq]
  case macroInv segs tokens =>
    simp only [known_macro_inner_ty] at h
    by_cases hk : isKnownName known segs = true
    · rw [if_pos hk] at h
      subst h
      simp [unfoldVisit, typeChildren, hk]
    · cases tokens <;> simp [unfoldVisit, typeChildren, hk]
  case implTrait bounds => simp [unfoldVisit, typeChildren, unfoldList_eq]
  case traitObject bounds => simp [unfoldVisit, typeChildren, unfoldList_eq]
  case infer => simp [unfoldVisit, typeChildren]
  case never => simp [unfoldVisit, typeChildren]
  case bareFn inputs output =>
    simp [unfoldVisit, typeChildren, unfoldList_eq, unfoldOpt_eq]
  case tuple elems => simp [unfoldVisit, typeChildren, unfoldList_eq]
  case reference e => simp [unfoldVisit, typeChildren]
  case slice e => simp [unfoldVisit, typeChildren]
  case array e => simp [unfoldVisit, typeChildren]
  case paren e => simp [unfoldVisit, typeChildren]
  case ptr e => simp [unfoldVisit, typeChildren]
  case group e => simp [unfoldVisit, typeChildren]

/-- No record the unfolding visitor emits has a `ty` the allow-list would
expand (a macro invocation with a known name and parseable tokens): such a
node is always replaced by the unfolding of its parse result. -/
theorem mem_unfoldVisit_not_expandable {known : List String} :
    ∀ (t : Ty) (p : Option Ty) (c : Child), c ∈ unfoldVisit known p t →
      known_macro_inner_ty c.ty known = none := by
  suffices key : ∀ (n : ℕ) (t : Ty), sizeOf t ≤ n → ∀ (p : Option Ty) (c : Child),
      c ∈ unfoldVisit known p t → known_macro_inner_ty c.ty known = none by
    intro t
    exact key (sizeOf t) t le_rfl
  intro n
  induction n using Nat.strong_induction_on with
  | _ n ih =>
    intro t ht p c hc
    cases hk : known_macro_inner_ty t known with
    | some inner =>
      rw [unfoldVisit_expand p hk] at hc
      exact ih (sizeOf inner) (lt_of_lt_of_le (sizeOf_lt_of_known_inner hk) ht)
        inner le_rfl p c hc
    | none =>
      rw [unfoldVisit_rec p hk] at hc
      rcases List.mem_cons.mp hc with rfl | hc
      · exact hk
      · rcases List.mem_flatMap.mp hc with ⟨ch, hch, hc⟩
        exact ih (sizeOf ch) (lt_of_lt_of_le (typeChildren_sizeOf hch) ht)
          ch le_rfl (some t) c hc

/-- The visitor's output always starts with a record whose parent is the
ambient parent it was called with. -/
theorem unfoldVisit_head (known : List String) :
    ∀ (t : Ty) (p : Option Ty), ∃ c rest,
      unfoldVisit known p t = c :: rest ∧ c.parent = p := by
  suffices key : ∀ (n : ℕ) (t : Ty), sizeOf t ≤ n → ∀ (p : Option Ty), ∃ c rest,
      unfoldVisit known p t = c :: rest ∧ c.parent = p by
    intro t
    exact key (sizeOf t) t le_rfl
  intro n
  induction n using Nat.strong_induction_on with
  | _ n ih =>
    intro t ht p
    cases hk : known_macro_inner_ty t known with
    | some inner =>
      rw [unfoldVisit_expand p hk]
      exact ih (sizeOf inner) (lt_of_lt_of_le (sizeOf_lt_of_known_inner hk) ht)
        inner le_rfl p
    | none =>
      rw [unfoldVisit_rec p hk]
      exact ⟨⟨p, t⟩, _, rfl, rfl⟩

/-- With no known macros, a record is either the head record `⟨p, t⟩` or has
a `some` parent and a `ty` strictly smaller than the visited tree. -/
theorem mem_unfoldVisit_nil :
    ∀ (t : Ty) (p : Option Ty) (c : Child), c ∈ unfoldVisit [] p t →
      c = ⟨p, t⟩ ∨ ((∃ q, c.parent = some q) ∧ sizeOf c.ty < sizeOf t) := by
  suffices key : ∀ (n : ℕ) (t : Ty), sizeOf t ≤ n → ∀ (p : Option Ty) (c : Child),
      c ∈ unfoldVisit [] p t →
      c = ⟨p, t⟩ ∨ ((∃ q, c.parent = some q) ∧ sizeOf c.ty < sizeOf t) by
    intro t
    exact key (sizeOf t) t le_rfl
  intro n
  induction n using Nat.strong_induction_on with
  | _ n ih =>
    intro t ht p c hc
    rw [unfoldVisit_rec p (known_macro_inner_ty_nil t)] at hc
    rcases List.mem_cons.mp hc with rfl | hc
    · exact Or.inl rfl
    · rcases List.mem_flatMap.mp hc with ⟨ch, hch, hc⟩
      have hlt := typeChildren_sizeOf hch
      rcases ih (sizeOf ch) (lt_of_lt_of_le hlt ht) ch le_rfl (some t) c hc with rfl | ⟨hq, hsz⟩
      · exact Or.inr ⟨⟨t, rfl⟩, hlt⟩
      · exact Or.inr ⟨hq, lt_trans hsz hlt⟩

/-- Splitting a `flatMap` at an occurrence: the occurrence lies in the image
of some element, and that element's image's prefix is a suffix of the
overall prefix. -/
theorem flatMap_split {α β : Type} (f : α → List β) :
    ∀ (l : List α) (l1 : List β) (c : β) (l2 : List β),
      l.flatMap f = l1 ++ c :: l2 →
      ∃ x ∈ l, ∃ a b pre, l1 = pre ++ a ∧ f x = a ++ c :: b := by
  intro l
  induction l with
  | nil =>
    intro l1 c l2 h
    simp only [List.flatMap_nil] at h
    exact absurd h.symm (List.append_ne_nil_of_right_ne_nil l1 (List.cons_ne_nil c l2))
  | cons x xs ih =>
    intro l1 c l2 h
    rw [List.flatMap_cons] at h
    rcases List.append_eq_append_iff.mp h with ⟨a', ha1, ha2⟩ | ⟨c', hc1, hc2⟩
    · rcases ih a' c l2 ha2 with ⟨y, hy, a, b, pre, hpre, hfy⟩
      exact ⟨y, List.mem_cons_of_mem _ hy, a, b, f x ++ pre,
        by rw [ha1, hpre, List.append_assoc], hfy⟩
    · cases c' with
      | nil =>
        simp only [List.nil_append] at hc2
        rcases ih [] c l2 hc2.symm with ⟨y, hy, a, b, pre, hpre, hfy⟩
        rcases List.append_eq_nil.mp hpre.symm with ⟨rfl, rfl⟩
        exact ⟨y, List.mem_cons_of_mem _ hy, [], b, l1, by simp, hfy⟩
      | cons c0 b =>
        injection hc2 with h1 h2
        subst h1
        exact ⟨x, List.mem_cons_self x xs, l1, b, [], by simp, hc1⟩

/-- Pre-order: in the visitor's output, a record's parent is either the
ambient parent or the `ty` of some record occurring strictly earlier in the
same output. -/
theorem unfoldVisit_preorder {known : List String} :
    ∀ (t : Ty) (p : Option Ty) (l1 : List Child) (c : Child) (l2 : List Child),
      unfoldVisit known p t = l1 ++ c :: l2 →
      c.parent = p ∨ ∃ e ∈ l1, some e.ty = c.parent := by
  suffices key : ∀ (n : ℕ) (t : Ty), sizeOf t ≤ n →
      ∀ (p : Option Ty) (l1 : List Child) (c : Child) (l2 : List Child),
      unfoldVisit known p t = l1 ++ c :: l2 →
      c.parent = p ∨ ∃ e ∈ l1, some e.ty = c.parent by
    intro t
    exact key (sizeOf t) t le_rfl
  intro n
  induction n using Nat.strong_induction_on with
  | _ n ih =>
    intro t ht p l1 c l2 h
    cases hk : known_macro_inner_ty t known with
    | some inner =>
      rw [unfoldVisit_expand p hk] at h
      exact ih (sizeOf inner) (lt_of_lt_of_le (sizeOf_lt_of_known_inner hk) ht)
        inner le_rfl p l1 c l2 h
    | none =>
      rw [unfoldVisit_rec p hk] at h
      cases l1 with
      | nil =>
        simp only [List.nil_append] at h
        injection h with h0 h1
        exact Or.inl (by rw [← h0])
      | cons e0 l1' =>
        injection h with h0 h1
        rcases flatMap_split _ _ _ _ _ h1 with ⟨ch, hch, a, b, pre, hpre, hfch⟩
        rcases ih (sizeOf ch) (lt_of_lt_of_le (typeChildren_sizeOf hch) ht)
            ch le_rfl (some t) a c b hfch with hpar | ⟨e, he, hety⟩
        · refine Or.inr ⟨e0, List.mem_cons_self e0 l1', ?_⟩
          rw [← h0, hpar]
        · exact Or.inr ⟨e, List.mem_cons_of_mem _ (hpre ▸ List.mem_append_right pre he), hety⟩

/-- Sanity anchor: the embedding reproduces the repository's unit test
`test_type_unfold_is_generic` — unfolding `exTy` yields exactly 8 records,
of which exactly 3 have a `ty` that `is_concrete` accepts with generic set
`{T}` (`B`, `Box<dyn Foo>` and `dyn Foo`). -/
theorem unfold_repo_test_scenario :
    (Ty.unfold exTy).length = 8 ∧
    ((Ty.unfold exTy).countP (fun c => is_concrete c.ty ["T"])) = 3 := by
  have h : Ty.unfold exTy
      = [⟨none, exTy⟩,
         ⟨some exTy, Ty.path false [("B", [])]⟩,
         ⟨some exTy, Ty.path false [("C", [Ty.implTrait []])]⟩,
         ⟨some (Ty.path false [("C", [Ty.implTrait []])]), Ty.implTrait []⟩,
         ⟨some exTy, Ty.path false [("Box", [Ty.traitObject []])]⟩,
         ⟨some (Ty.path false [("Box", [Ty.traitObject []])]), Ty.traitObject []⟩,
         ⟨some exTy, Ty.path false [("Option", [Ty.path false [("T", [])]])]⟩,
         ⟨some (Ty.path false [("Option", [Ty.path false [("T", [])]])]),
           Ty.path false [("T", [])]⟩] := by
    simp [Ty.unfold, unfold_with_known_macros, unfoldVisit, unfoldSegs, unfoldList, exTy]
  rw [h]
  decide

/-! ### Claim theorems -/

/-- C1: the claim says `is_concrete` is false whenever a bare path matching a
generic ident occurs anywhere in the tree.  The code violates this: in
`(T, fn())` the path `T` sets the visitor's flag to false, but the
later-visited sibling `fn()` hits the `BareFn(_) | Never(_)` arm, which
ASSIGNS `true` to the flag (`self.0 = true`), erasing the earlier verdict;
the call returns true.  Without the `fn()` sibling the same tree is
correctly reported non-concrete.  This theorem evaluates the embedded code
at the failing input. -/
theorem is_concrete_bare_fn_overwrites_generic_match :
    is_concrete (Ty.tuple [Ty.path false [("T", [])], Ty.bareFn [] none]) ["T"] = true ∧
    is_concrete (Ty.tuple [Ty.path false [("T", [])]]) ["T"] = false := by
  decide

/-- C2 counterexample: the claim says that when a known macro invocation `N`
parses to `M`, the output contains "no entry for `M`".  For the root
`foo!(u8)` with allow-list `["foo"]` the whole output is the single record
`⟨none, u8⟩` — an entry whose `ty` IS `M` (attributed to `N`'s parent). -/
theorem unfold_known_mac_inner_root_recorded :
    unfold_with_known_macros (Ty.macroInv ["foo"] (some (Ty.path false [("u8", [])]))) ["foo"]
      = [⟨none, Ty.path false [("u8", [])]⟩] := by
  simp [unfold_with_known_macros, unfoldVisit, unfoldSegs, unfoldList, isKnownName]

/-- C2 (amended): when the visitor meets a macro-invocation node `N` whose
name is in the allow-list and whose tokens parse as `M`, no entry is
recorded for `N` itself; the records contributed are exactly those of
visiting `M` under `N`'s parent — so `M` itself is recorded, attributed to
`N`'s parent, and `M`'s own children are attributed to `M`. -/
theorem unfold_known_mac_elides_invocation_only (known : List String) (p : Option Ty)
    (segs : List String) (M : Ty) (h : isKnownName known segs = true) :
    unfoldVisit known p (Ty.macroInv segs (some M)) = unfoldVisit known p M := by
  simp [unfoldVisit, h]

/-- C2 witness: the amended theorem at a concrete input. -/
theorem unfold_known_mac_elides_invocation_only_witness :
    isKnownName ["foo"] ["foo"] = true ∧
    unfoldVisit ["foo"] none (Ty.macroInv ["foo"] (some Ty.never))
      = unfoldVisit ["foo"] none Ty.never :=
  ⟨by decide, unfold_known_mac_elides_invocation_only ["foo"] none ["foo"] Ty.never (by decide)⟩

/-- C3 counterexample: the claim says no output entry has a macro-invocation
`ty` whose name is in the known-macros list.  A known-named macro whose
token content does NOT parse as a type is recorded as a leaf
(`known_macro_inner_ty` returns `None` on parse failure, so the visitor
falls through to the recording branch): for the root `foo!(<unparseable>)`
with allow-list `["foo"]` the output's only entry has exactly such a
`ty`. -/
theorem unfold_keeps_unparseable_known_mac :
    isKnownName ["foo"] ["foo"] = true ∧
    unfold_with_known_macros (Ty.macroInv ["foo"] none) ["foo"]
      = [⟨none, Ty.macroInv ["foo"] none⟩] := by
  refine ⟨by decide, ?_⟩
  simp [unfold_with_known_macros, unfoldVisit]

/-- C3 (amended): no output entry has a `ty` the allow-list would actually
expand — a macro invocation whose name is known AND whose tokens parse as a
type (known-named macros with unparseable tokens do appear, as leaves). -/
theorem unfold_no_expandable_mac_entry (t : Ty) (known : List String) (c : Child)
    (hc : c ∈ unfold_with_known_macros t known) :
    known_macro_inner_ty c.ty known = none :=
  mem_unfoldVisit_not_expandable t none c hc

/-- C3 witness: the amended theorem at a concrete input. -/
theorem unfold_no_expandable_mac_entry_witness :
    (⟨none, Ty.infer⟩ : Child) ∈ unfold_with_known_macros Ty.infer ["foo"] ∧
    known_macro_inner_ty Ty.infer ["foo"] = none :=
  ⟨by simp [unfold_with_known_macros, unfoldVisit],
   unfold_no_expandable_mac_entry Ty.infer ["foo"] ⟨none, Ty.infer⟩
     (by simp [unfold_with_known_macros, unfoldVisit])⟩

/-- C4 counterexample: the claim's "parent is none iff the entry's `ty` is
the root node" fails for `unfold_with_known_macros` when the root itself is
an expandable macro: for root `foo!(!)` with allow-list `["foo"]` the
single output entry has no parent but its `ty` is the expansion `!`, not
the root. -/
theorem unfold_known_mac_root_not_self :
    unfold_with_known_macros (Ty.macroInv ["foo"] (some Ty.never)) ["foo"]
      = [⟨none, Ty.never⟩] ∧
    Ty.never ≠ Ty.macroInv ["foo"] (some Ty.never) := by
  refine ⟨?_, by simp⟩
  simp [unfold_with_known_macros, unfoldVisit, isKnownName]

/-- C4 (amended): for every tree and allow-list the output is non-empty and
its first entry has no parent; and for `unfold` (empty allow-list, where no
node is ever elided) an entry's parent is `none` iff its `ty` is the root
node. -/
theorem unfold_nonempty_head_and_root_iff (t : Ty) (known : List String) (c : Child)
    (hc : c ∈ Ty.unfold t) :
    (unfold_with_known_macros t known ≠ [] ∧
      (unfold_with_known_macros t known).head?.map Child.parent = some none) ∧
    (c.parent = none ↔ c.ty = t) := by
  have hc' : c ∈ unfoldVisit [] none t := hc
  constructor
  · rcases unfoldVisit_head known t none with ⟨c0, rest, heq, hpar⟩
    have heq' : unfold_with_known_macros t known = c0 :: rest := heq
    rw [heq']
    exact ⟨List.cons_ne_nil c0 rest, by simp [hpar]⟩
  · constructor
    · intro hnone
      rcases mem_unfoldVisit_nil t none c hc' with rfl | ⟨⟨q, hq⟩, _⟩
      · rfl
      · rw [hnone] at hq
        cases hq
    · intro hty
      rcases mem_unfoldVisit_nil t none c hc' with rfl | ⟨_, hsz⟩
      · rfl
      · rw [hty] at hsz
        exact absurd hsz (lt_irrefl _)

/-- C4 witness: the amended theorem at a concrete input. -/
theorem unfold_nonempty_head_and_root_iff_witness :
    (⟨none, Ty.never⟩ : Child) ∈ Ty.unfold Ty.never ∧
    ((unfold_with_known_macros Ty.never ["k"] ≠ [] ∧
        (unfold_with_known_macros Ty.never ["k"]).head?.map Child.parent = some none) ∧
      ((Child.mk none Ty.never).parent = none ↔ (Child.mk none Ty.never).ty = Ty.never)) :=
  ⟨by simp [Ty.unfold, unfold_with_known_macros, unfoldVisit],
   unfold_nonempty_head_and_root_iff Ty.never ["k"] ⟨none, Ty.never⟩
     (by simp [Ty.unfold, unfold_with_known_macros, unfoldVisit])⟩

/-- C5: the output of `unfold_with_known_macros` is in pre-order — an entry
with a parent is preceded, somewhere earlier in the output, by an entry
whose `ty` is that parent — and the function is deterministic (in this pure
embedding, any two values of the same call are equal). -/
theorem unfold_preorder_and_deterministic (t : Ty) (known : List String)
    (l1 : List Child) (c : Child) (l2 : List Child) (q : Ty)
    (hsplit : unfold_with_known_macros t known = l1 ++ c :: l2)
    (hq : c.parent = some q) :
    q ∈ l1.map Child.ty ∧
    ∀ L1 L2 : List Child, unfold_with_known_macros t known = L1 →
      unfold_with_known_macros t known = L2 → L1 = L2 := by
  constructor
  · rcases unfoldVisit_preorder t none l1 c l2 hsplit with hpar | ⟨e, he, hety⟩
    · rw [hpar] at hq
      cases hq
    · have heq : e.ty = q := by
        rw [hq] at hety
        injection hety
      exact List.mem_map.mpr ⟨e, he, heq⟩
  · intro L1 L2 h1 h2
    rw [← h1, ← h2]

/-- C5 witness: the theorem at a concrete input. -/
theorem unfold_preorder_and_deterministic_witness :
    unfold_with_known_macros (Ty.tuple [Ty.infer]) []
      = [⟨none, Ty.tuple [Ty.infer]⟩] ++
          ⟨some (Ty.tuple [Ty.infer]), Ty.infer⟩ :: [] ∧
    (Child.mk (some (Ty.tuple [Ty.infer])) Ty.infer).parent = some (Ty.tuple [Ty.infer]) ∧
    (Ty.tuple [Ty.infer] ∈ [Child.mk none (Ty.tuple [Ty.infer])].map Child.ty ∧
      ∀ L1 L2 : List Child, unfold_with_known_macros (Ty.tuple [Ty.infer]) [] = L1 →
        unfold_with_known_macros (Ty.tuple [Ty.infer]) [] = L2 → L1 = L2) :=
  ⟨by simp [unfold_with_known_macros, unfoldVisit, unfoldList], rfl,
   unfold_preorder_and_deterministic (Ty.tuple [Ty.infer]) []
     [⟨none, Ty.tuple [Ty.infer]⟩] ⟨some (Ty.tuple [Ty.infer]), Ty.infer⟩ [] (Ty.tuple [Ty.infer])
     (by simp [unfold_with_known_macros, unfoldVisit, unfoldList]) rfl⟩

/-- C6: parse failure of a known macro's token content (`tokens = none`,
modelling `syn::parse2(..).ok() = None`) is never an error: the macro
invocation is recorded as an ordinary leaf under its parent, not expanded,
and the traversal still returns a (total, valid) result. -/
theorem unparseable_known_mac_degrades_to_leaf (known : List String) (parent : Option Ty)
    (segs : List String) :
    unfoldVisit known parent (Ty.macroInv segs none) = [⟨parent, Ty.macroInv segs none⟩] ∧
    unfold_with_known_macros (Ty.macroInv segs none) known
      = [⟨none, Ty.macroInv segs none⟩] := by
  constructor <;> simp [unfold_with_known_macros, unfoldVisit]

/-- C7: `is_concrete` is true for every function-pointer type — whatever its
parameter and return types contain — and for the never type, for any set of
generic identifiers (the `BareFn(_) | Never(_)` arm returns without
descending). -/
theorem bare_fn_and_never_always_concrete (generics : List String) (inputs : List Ty)
    (output : Option Ty) :
    is_concrete (Ty.bareFn inputs output) generics = true ∧
    is_concrete Ty.never generics = true := by
  constructor <;> rfl

/-- C8 counterexample: the claim says `respanned` overwrites the
source-location of EVERY token, including tokens nested inside delimited
groups.  But `set_span` on a `Group` sets only the group's own span: the
ident inside the group keeps span `7` after respanning to `42`. -/
theorem respanned_group_keeps_inner_spans :
    respanned [Tok.group 0 [Tok.ident "x" 7] 7] 42
      = [Tok.group 0 [Tok.ident "x" 7] 42] ∧
    Tok.allSpansAre 42 (Tok.group 0 [Tok.ident "x" 7] 42) = false := by
  refine ⟨rfl, ?_⟩
  simp [Tok.allSpansAre, Tok.listSpansAre]

/-- C8 (amended): `respanned` overwrites the span of every TOP-LEVEL token
of the stream to the given location and changes nothing else — in
particular the contents of delimited groups, including the spans of the
tokens inside them, are left untouched. -/
theorem respanned_sets_top_level_spans_only (ts : List Tok) (s : Nat) :
    (respanned ts s).map Tok.topSpan = List.replicate ts.length s ∧
    (respanned ts s).map Tok.eraseTopSpan = ts.map Tok.eraseTopSpan := by
  constructor
  · rw [respanned, List.map_map]
    have h : Tok.topSpan ∘ Tok.set_span s = fun _ => s := funext fun t => by cases t <;> rfl
    rw [h]
    exact List.map_const ts s
  · rw [respanned, List.map_map]
    congr 1
    funext t
    cases t <;> rfl

/-- C10 counterexample: `append` on the raw identifier `r#type` panics
(modelled as `none`): the Rust code formats the identifier with its `r#`
prefix intact and hands the result to `Ident::new`, whose validation
rejects `#`. -/
theorem append_panics_on_raw_ident :
    Ident.append ⟨"type", true, 5⟩ "_x" = none := by decide

/-- C10 (amended): `append` succeeds — returning the concatenation of the
identifier's displayed text and the suffix, with the original span —
exactly when that concatenation is a valid identifier text; for every raw
identifier it fails, since the displayed form keeps the `r#` prefix and `#`
is not a valid identifier character. -/
theorem append_total_iff_valid_text (i : Ident) (s : String) :
    (identOk (i.display ++ s) = true →
      Ident.append i s = some ⟨i.display ++ s, false, i.span⟩) ∧
    (i.isRaw = true → Ident.append i s = none) := by
  constructor
  · intro h
    simp only [Ident.append, Ident.new, if_pos h]
  · intro hraw
    have hdisp : i.display = "r#" ++ i.text := by
      simp [Ident.display, hraw]
    have hdata : (i.display ++ s).data = 'r' :: '#' :: (i.text.data ++ s.data) := by
      rw [hdisp, String.data_append, String.data_append]
      rfl
    have hne : ('#'.isAlphanum || '#' == '_') = false := by decide
    have hok : identOk (i.display ++ s) = false := by
      simp only [identOk]
      rw [hdata]
      simp [hne]
    simp only [Ident.append, Ident.new, hok]
    simp

/-- C10 witness: the amended theorem at a concrete input. -/
theorem append_total_iff_valid_text_witness :
    identOk ((Ident.mk "foo" false 3).display ++ "_x") = true ∧
    Ident.append ⟨"foo", false, 3⟩ "_x"
      = some ⟨(Ident.mk "foo" false 3).display ++ "_x", false, 3⟩ :=
  ⟨by decide, (append_total_iff_valid_text ⟨"foo", false, 3⟩ "_x").1 (by decide)⟩

end SynExt
